import Mathlib

/-!
Verification of the packet-framing and bounded-ingestion core of
`src/com_sniffer.py` (class `SerialReaderThread` and the display-queue part of
`ComSniffer`).  Byte strings are modelled as `List Nat` (each element a byte
value `< 256`), Python strings as `List Char`.  Machine integers do not occur:
all quantities involved are non-negative and unbounded in the source
(Python `int`), so `Nat` is the faithful carrier.

Layout: definitions (shallow embedding of the source), then helper lemmas,
then one theorem per claim with its witness / counterexample.
-/

/-- `self.max_buffer_size = 1024 * 1024` (com_sniffer.py line 158). -/
def maxBufferSize : Nat := 1024 * 1024

/-- `self.max_log_size = 20 * 1024 * 1024` (com_sniffer.py line 151). -/
def maxLogSize : Nat := 20 * 1024 * 1024

/-- `self.max_pending_display = 20000` (com_sniffer.py line 345). -/
def maxPendingDisplay : Nat := 20000

/-- Head match of byte strings: `matchAt pat l` is `true` iff `l` starts with
`pat`.  This is the primitive used to model Python's substring search. -/
def matchAt : List Nat → List Nat → Bool
  | [], _ => true
  | _ :: _, [] => false
  | p :: ps, x :: xs => p == x && matchAt ps xs

/-- Worker for `findFrom`: scan positions `i, i+1, ...` of the original string,
`t` being its suffix starting at `i`. -/
def findFromAux (pat : List Nat) : List Nat → Nat → Option Nat
  | [], i => if matchAt pat [] then some i else none
  | x :: tl, i => if matchAt pat (x :: tl) then some i else findFromAux pat tl (i + 1)

/-- Python `bytes.find(pat, start)` for a non-empty needle: the least index
`≥ start` at which `pat` occurs in `l`, `none` standing for Python's `-1`.
(For an empty needle Python clamps differently; every call site in the source
passes a non-empty marker, see `parseMarker_ne_nil`.) -/
def findFrom (pat l : List Nat) (start : Nat) : Option Nat :=
  findFromAux pat (l.drop start) start

/-- `occursAt pat l i`: the byte string `pat` occurs in `l` at offset `i`.
Spelled with `matchAt` so it is decidable by computation; the semantic
characterisation is `occursAt_iff_append`. -/
def occursAt (pat l : List Nat) (i : Nat) : Prop :=
  matchAt pat (l.drop i) = true

instance occursAtDecidable (pat l : List Nat) (i : Nat) : Decidable (occursAt pat l i) :=
  inferInstanceAs (Decidable (matchAt pat (l.drop i) = true))

/-- The STX..ETX framing loop (com_sniffer.py lines 211-223), fuel-indexed so
that it is structurally recursive and kernel-computable.  One fuel unit per
loop iteration; `frameLoop` supplies enough fuel.  Body, faithful to source:
`start_index = buffer.find(start_byte)`; if `-1`, `buffer = b""` and break;
if `> 0`, `buffer = buffer[start_index:]` — the source guards the re-slice
with `start_index > 0`, but `buffer[0:]` is `buffer`, so the unconditional
`buf.drop si` below is the same list;
`end_index = buffer.find(end_byte, len(start_byte))`; if `-1`, break;
else emit `buffer[:end_index + len(end_byte)]` and continue on the rest. -/
def frameLoopFuel : Nat → List Nat → List Nat → List Nat → List (List Nat) × List Nat
  | 0, _, _, buf => ([], buf)
  | fuel + 1, s, e, buf =>
    match findFrom s buf 0 with
    | none => ([], [])
    | some si =>
      match findFrom e (buf.drop si) s.length with
      | none => ([], buf.drop si)
      | some ei =>
        let r := frameLoopFuel fuel s e ((buf.drop si).drop (ei + e.length))
        ((buf.drop si).take (ei + e.length) :: r.1, r.2)

/-- The `while True` framing loop of start/end mode: returns the emitted
packets (in order) and the residual buffer. -/
def frameLoop (s e buf : List Nat) : List (List Nat) × List Nat :=
  frameLoopFuel (buf.length + 1) s e buf

/-- The end-marker-only loop (com_sniffer.py lines 238-240), fuel-indexed.
Body, faithful to source: `while end_byte in buffer:`
`packet, buffer = buffer.split(end_byte, 1); packet += end_byte`. -/
def endLoopFuel : Nat → List Nat → List Nat → List (List Nat) × List Nat
  | 0, _, b => ([], b)
  | fuel + 1, e, b =>
    match findFrom e b 0 with
    | none => ([], b)
    | some i =>
      let r := endLoopFuel fuel e (b.drop (i + e.length))
      ((b.take i ++ e) :: r.1, r.2)

/-- The `while end_byte in self.buffer` loop of end-marker-only mode. -/
def endLoop (e b : List Nat) : List (List Nat) × List Nat :=
  endLoopFuel (b.length + 1) e b

/-- The 1 MiB safety cap (com_sniffer.py lines 202-204):
`if len(buffer) > max_buffer_size: buffer = buffer[-max_buffer_size:]`. -/
def capBuf (b : List Nat) : List Nat :=
  if maxBufferSize < b.length then b.drop (b.length - maxBufferSize) else b

/-- One pass of the buffered branch of `SerialReaderThread.run`
(com_sniffer.py lines 199-252) on one received chunk: append the chunk,
apply the cap, then run the framing loop selected by
`if start_byte:` (line 209).  Returns the packets emitted by this pass and
the new value of `self.buffer`. -/
def ingestBuffered (s e buf chunk : List Nat) : List (List Nat) × List Nat :=
  match s with
  | _ :: _ => frameLoop s e (capBuf (buf ++ chunk))
  | [] => endLoop e (capBuf (buf ++ chunk))

/-- One pass of the body of `SerialReaderThread.run`'s read loop on one chunk
(com_sniffer.py lines 199-265).  The branch condition mirrors
`if self.buffer_enabled and self.end_marker:`; the non-buffered branch
(lines 253-265) emits the chunk itself as a single packet and never touches
`self.buffer`.  `s` and `e` are the already-resolved start/end marker bytes;
a non-empty end-marker string always resolves to non-empty bytes
(`parseMarker_ne_nil`), so testing `e` for emptiness is the string test. -/
def ingest (bufferEnabled : Bool) (s e buf chunk : List Nat) : List (List Nat) × List Nat :=
  if bufferEnabled && !e.isEmpty then ingestBuffered s e buf chunk
  else ([chunk], buf)

/-! ### Marker resolver (`SerialReaderThread._parse_marker`, lines 160-175)

Python strings are modelled as `List Char` restricted to the character-level
operations the source actually uses: `str.strip()` (whitespace trim),
`str.upper()` / `str.lower()` (modelled by Lean's ASCII `Char.toUpper` /
`Char.toLower`; marker specifications are ASCII), `str.isdigit()` (ASCII
digits), `int(_, 16)` / `int(_)` and `str.encode('utf-8')`. -/

/-- The whitespace characters stripped by Python `str.strip()` (ASCII range). -/
def isPySpace (c : Char) : Bool :=
  c == ' ' || c == '\t' || c == '\n' || c == '\r' || c == '\x0b' || c == '\x0c'

/-- Python `str.strip()`: drop whitespace from both ends. -/
def pyStrip (s : List Char) : List Char :=
  ((s.dropWhile isPySpace).reverse.dropWhile isPySpace).reverse

/-- `marker_upper = marker_str.strip().upper()` (line 163). -/
def markerUpper (s : List Char) : List Char :=
  (pyStrip s).map Char.toUpper

/-- Python `str.isdigit()` for ASCII input: non-empty and all in `'0'..'9'`. -/
def pyIsDigit (s : List Char) : Bool :=
  !s.isEmpty && s.all Char.isDigit

/-- Value of a decimal digit string, `int(s)` for `s.isdigit()` input. -/
def decDigits (s : List Char) : Nat :=
  s.foldl (fun a c => 10 * a + (c.toNat - 48)) 0

/-- Value of one hexadecimal digit, if any. -/
def hexDigitVal (c : Char) : Option Nat :=
  if c.isDigit then some (c.toNat - 48)
  else if 'A' ≤ c ∧ c ≤ 'F' then some (c.toNat - 55)
  else if 'a' ≤ c ∧ c ≤ 'f' then some (c.toNat - 87)
  else none

/-- Digits after the first one in Python's hex-integer grammar: single
underscores are allowed between digits, not doubled and not trailing. -/
def hexCore : List Char → Nat → Option Nat
  | [], acc => some acc
  | '_' :: c :: rest, acc =>
    match hexDigitVal c with
    | some v => hexCore rest (16 * acc + v)
    | none => none
  | c :: rest, acc =>
    match hexDigitVal c with
    | some v => hexCore rest (16 * acc + v)
    | none => none

/-- Digit part after the `0x` prefix: at least one digit, an underscore
directly after the prefix is allowed. -/
def hexStart : List Char → Option Nat
  | [] => none
  | '_' :: c :: rest =>
    match hexDigitVal c with
    | some v => hexCore rest v
    | none => none
  | c :: rest =>
    match hexDigitVal c with
    | some v => hexCore rest v
    | none => none

/-- Python `int(s, 16)` for a (stripped) string carrying a `0x`/`0X` prefix —
the only shape it is applied to in the source (line 170), where the
`ValueError` on failure is modelled as `none`. -/
def pyHexInt : List Char → Option Nat
  | '0' :: 'X' :: rest => hexStart rest
  | '0' :: 'x' :: rest => hexStart rest
  | _ => none

/-- UTF-8 encoding of one code point. -/
def utf8Char (c : Char) : List Nat :=
  let n := c.toNat
  if n < 0x80 then [n]
  else if n < 0x800 then [0xC0 + n / 64, 0x80 + n % 64]
  else if n < 0x10000 then [0xE0 + n / 4096, 0x80 + n / 64 % 64, 0x80 + n % 64]
  else [0xF0 + n / 262144, 0x80 + n / 4096 % 64, 0x80 + n / 64 % 64, 0x80 + n % 64]

/-- Python `s.encode('utf-8')`. -/
def utf8Encode (s : List Char) : List Nat :=
  (s.map utf8Char).flatten

/-- `SerialReaderThread._parse_marker` (lines 160-175).  `none` models an
uncaught exception: `bytes([int(marker_upper)])` raises `ValueError` for a
decimal value `≥ 256` (line 174, not guarded by a `try`).  In the hex branch
the `try/except ValueError` catches both a failed `int(_, 16)` parse and an
out-of-range `bytes([_])`, falling back to the raw UTF-8 text. -/
def parseMarker (s : List Char) : Option (List Nat) :=
  if s.isEmpty then some []
  else if markerUpper s = ['S', 'T', 'X'] then some [0x02]
  else if markerUpper s = ['E', 'T', 'X'] then some [0x03]
  else if ['0', 'x'].isPrefixOf ((markerUpper s).map Char.toLower) then
    match pyHexInt (markerUpper s) with
    | some n => if n < 256 then some [n] else some (utf8Encode s)
    | none => some (utf8Encode s)
  else if pyIsDigit (markerUpper s) then
    if decDigits (markerUpper s) < 256 then some [decDigits (markerUpper s)] else none
  else some (utf8Encode s)

/-! ### Packet rendering (lines 225-227) -/

/-- One hexadecimal digit character, uppercase. -/
def hexDigitChar (n : Nat) : Char :=
  if n < 10 then Char.ofNat (48 + n) else Char.ofNat (55 + n)

/-- Python `f'{b:02X}'` for a byte value `b < 256`. -/
def hexByteStr (b : Nat) : List Char :=
  [hexDigitChar (b / 16), hexDigitChar (b % 16)]

/-- `' '.join(f'{b:02X}' for b in packet)` (line 225). -/
def hexDataStr (bs : List Nat) : List Char :=
  ((bs.map hexByteStr).intersperse [' ']).flatten

/-- `f"[{timestamp}] {source_label} {formatted_display}\n"` (line 227);
`format_packet_display` is the identity on the hex text (lines 80-82). -/
def renderMessage (ts label : List Char) (data : List Nat) : List Char :=
  '[' :: ts ++ ']' :: ' ' :: label ++ ' ' :: hexDataStr data ++ ['\n']

/-! ### Per-port log sink with rotation
(`open_new_log_file` lines 279-302, write-and-rotate lines 230-235)

The log is modelled as the chronological sequence of writes across all files
of the session: a `header` block per file opening, one `packet` line per
emitted packet (only its encoded byte length matters for rotation, since
`log_file_size` counts `len(message.encode('utf-8'))` and header/footer bytes
are written after the counter is reset and hence never counted), and a
`footer` line (`"\nКрай: ..."`) when a file is closed by rotation. -/

inductive LogEntry
  | header
  | packet (len : Nat)
  | footer
deriving DecidableEq

structure SinkState where
  entries : List LogEntry
  size : Nat
  hasFile : Bool
deriving DecidableEq

/-- `SerialReaderThread.open_new_log_file` (lines 279-302): if a file is open,
write its footer and close it; open a fresh file, reset `log_file_size` to 0
and write the header. -/
def openNewLogFile (st : SinkState) : SinkState :=
  { entries := st.entries ++ (if st.hasFile then [LogEntry.footer] else []) ++ [LogEntry.header],
    size := 0,
    hasFile := true }

/-- One packet write (lines 230-235): append the rendered line, add its byte
length to `log_file_size`, and rotate (`rotate_log_file` = `open_new_log_file`,
lines 304-306) when the counter reaches `max_log_size`. -/
def writeLogPacket (st : SinkState) (msgLen : Nat) : SinkState :=
  let st1 : SinkState :=
    { st with entries := st.entries ++ [LogEntry.packet msgLen], size := st.size + msgLen }
  if maxLogSize ≤ st1.size then openNewLogFile st1 else st1

/-- Sink state right after monitoring starts (line 191 calls
`open_new_log_file` with no file open yet). -/
def initSink : SinkState :=
  openNewLogFile ⟨[], 0, false⟩

/-- Modelled from the spec: the reference partition of the packet-line stream
into log files — a file is closed exactly when the cumulative byte count of
its packet lines reaches or exceeds the 20 MiB threshold, the check being made
after each write (one rotation per crossing).  First component: the completed
(rotated-out) files, second: the currently open file. -/
def specFilesStep (p : List (List Nat) × List Nat) (m : Nat) : List (List Nat) × List Nat :=
  if maxLogSize ≤ (p.2 ++ [m]).sum then (p.1 ++ [p.2 ++ [m]], []) else (p.1, p.2 ++ [m])

/-- Modelled from the spec: fold of `specFilesStep` over the whole stream. -/
def specFiles (msgs : List Nat) : List (List Nat) × List Nat :=
  msgs.foldl specFilesStep ([], [])

/-- Modelled from the spec: a completed log file is closed exactly at its
first crossing of the threshold — its packet bytes reach `maxLogSize`, but
they did not yet before its last packet was written. -/
def goodFile (f : List Nat) : Prop :=
  f ≠ [] ∧ maxLogSize ≤ f.sum ∧ f.dropLast.sum < maxLogSize

/-- Rendering of one completed file inside the chronological entry stream:
its packet lines, then its footer, then the next file's header. -/
def renderFileStep (f : List Nat) (acc : List LogEntry) : List LogEntry :=
  f.map LogEntry.packet ++ LogEntry.footer :: LogEntry.header :: acc

/-- The chronological entry stream corresponding to completed files `done`
followed by the currently open file `cur`. -/
def renderEntries (done : List (List Nat)) (cur : List Nat) : List LogEntry :=
  LogEntry.header :: done.foldr renderFileStep (cur.map LogEntry.packet)

/-! ### `SerialReaderThread.stop` (lines 308-324) and the reader loop's
cleanup (`finally`, lines 271-277)

The per-port log file is modelled with its closedness observable, because
`stop` closes the file itself while the reader thread's `finally` block still
tries to write the footer to it; a write on a closed file raises `ValueError`
in Python, recorded here as `writeError` (and nothing is appended). -/

inductive PortWrite
  | line (msg : List Char)
  | footer
deriving DecidableEq

structure PortFile where
  closed : Bool
  writes : List PortWrite
  writeError : Bool
deriving DecidableEq

/-- A `file.write(..)`: appends if the file is open, raises (recorded as
`writeError`) if it was already closed. -/
def fileWrite (f : PortFile) (w : PortWrite) : PortFile :=
  if f.closed then { f with writeError := true } else { f with writes := f.writes ++ [w] }

/-- `file.close()`. -/
def fileClose (f : PortFile) : PortFile :=
  { f with closed := true }

/-- The fields of `SerialReaderThread` that `stop` reads or writes
(`is_running` and the serial handle are irrelevant to the claims). -/
structure ReaderState where
  bufferEnabled : Bool
  buffer : List Nat
  lastTimestamp : List Char
  sourceLabel : List Char
  logFile : Option PortFile
deriving DecidableEq

/-- `SerialReaderThread.stop` (lines 308-324): if buffering is enabled and the
residual buffer is non-empty, render it as one message, emit it
(`data_received.emit`), and write it to the log file if one exists; then, if a
log file exists, close it — with no footer.  Returns the emitted messages and
the new state. -/
def readerStop (st : ReaderState) : List (List Char) × ReaderState :=
  if st.bufferEnabled && !st.buffer.isEmpty then
    let msg := renderMessage st.lastTimestamp st.sourceLabel st.buffer
    let lf := (st.logFile.map (fun f => fileWrite f (PortWrite.line msg))).map fileClose
    ([msg], { st with logFile := lf })
  else
    ([], { st with logFile := st.logFile.map fileClose })

/-- The reader thread's `finally` block (lines 271-274): if a log file object
exists, write the footer line and close it.  When `stop` already closed the
file the footer write raises `ValueError` (recorded as `writeError`; nothing
is appended and the footer is lost). -/
def runFinally (st : ReaderState) : ReaderState :=
  { st with logFile := st.logFile.map (fun f => fileClose (fileWrite f PortWrite.footer)) }

/-! ### Display queue (`ComSniffer.on_data_received`, lines 803-808) -/

/-- `while len(q) > cap: q.popleft()`. -/
def trimOldest {α : Type} (cap : Nat) : List α → List α
  | [] => []
  | x :: tl => if cap < (x :: tl).length then trimOldest cap tl else x :: tl

/-- The display-queue part of `ComSniffer.on_data_received` (lines 805-808):
`pending_display.append(data)`, then if the length exceeds
`max_pending_display`, pop from the left until it no longer does. -/
def enqueueDisplay (q : List (List Char)) (x : List Char) : List (List Char) :=
  if maxPendingDisplay < (q ++ [x]).length then trimOldest maxPendingDisplay (q ++ [x])
  else q ++ [x]

/-! ## Helper lemmas -/

theorem matchAt_iff_append (p : List Nat) : ∀ l : List Nat,
    matchAt p l = true ↔ ∃ t, l = p ++ t := by
  induction p with
  | nil =>
    intro l
    simp [matchAt]
  | cons a ps ih =>
    intro l
    cases l with
    | nil =>
      simp [matchAt]
    | cons x xs =>
      simp only [matchAt, Bool.and_eq_true, beq_iff_eq, ih, List.cons_append,
        List.cons.injEq]
      constructor
      · rintro ⟨rfl, t, rfl⟩
        exact ⟨t, rfl, rfl⟩
      · rintro ⟨t, rfl, rfl⟩
        exact ⟨rfl, t, rfl⟩

theorem occursAt_iff_append (pat l : List Nat) (i : Nat) :
    occursAt pat l i ↔ ∃ t, l.drop i = pat ++ t :=
  matchAt_iff_append pat (l.drop i)

theorem occursAt_bound {pat l : List Nat} {i : Nat} (hp : pat ≠ [])
    (h : occursAt pat l i) : i + pat.length ≤ l.length := by
  obtain ⟨t, ht⟩ := (occursAt_iff_append pat l i).mp h
  have hlen : l.length - i = pat.length + t.length := by
    have := congrArg List.length ht
    simpa [List.length_drop] using this
  have hpat : 0 < pat.length := List.length_pos.mpr hp
  omega

theorem matchAt_nil_eq_false {pat : List Nat} (hp : pat ≠ []) :
    matchAt pat [] = false := by
  cases pat with
  | nil => exact absurd rfl hp
  | cons a ps => rfl


theorem findFromAux_cons_pos {pat : List Nat} {x : Nat} {xs : List Nat} {i : Nat}
    (hm : matchAt pat (x :: xs) = true) :
    findFromAux pat (x :: xs) i = some i := by
  simp [findFromAux, hm]

theorem findFromAux_cons_neg {pat : List Nat} {x : Nat} {xs : List Nat} {i : Nat}
    (hm : ¬ matchAt pat (x :: xs) = true) :
    findFromAux pat (x :: xs) i = findFromAux pat xs (i + 1) := by
  simp [findFromAux, hm]

theorem findFromAux_eq_some (pat : List Nat) : ∀ (t : List Nat) (i k : Nat),
    findFromAux pat t i = some k ↔
      (i ≤ k ∧ matchAt pat (t.drop (k - i)) = true ∧
        ∀ j, i ≤ j → j < k → ¬ matchAt pat (t.drop (j - i)) = true) := by
  intro t
  induction t with
  | nil =>
    intro i k
    by_cases hm : matchAt pat [] = true
    · rw [show findFromAux pat [] i = some i from by simp [findFromAux, hm]]
      constructor
      · intro h
        have hik : i = k := by simpa using h
        subst hik
        exact ⟨Nat.le_refl i, by simpa using hm,
          fun j h1 h2 => absurd (Nat.lt_of_le_of_lt h1 h2) (Nat.lt_irrefl i)⟩
      · rintro ⟨h1, -, h3⟩
        rcases Nat.lt_or_ge i k with h | h
        · exact absurd (by simpa using hm) (h3 i (Nat.le_refl i) h)
        · have : i = k := by omega
          rw [this]
      
    · rw [show findFromAux pat [] i = none from by simp [findFromAux, hm]]
      constructor
      · intro h
        exact absurd h (by simp)
      · rintro ⟨-, h2, -⟩
        exact absurd (by simpa using h2) hm
  | cons x xs ih =>
    intro i k
    by_cases hm : matchAt pat (x :: xs) = true
    · rw [findFromAux_cons_pos hm]
      constructor
      · intro h
        have hik : i = k := by simpa using h
        subst hik
        exact ⟨Nat.le_refl i, by simpa using hm,
          fun j h1 h2 => absurd (Nat.lt_of_le_of_lt h1 h2) (Nat.lt_irrefl i)⟩
      · rintro ⟨h1, -, h3⟩
        rcases Nat.lt_or_ge i k with h | h
        · have := h3 i (Nat.le_refl i) h
          rw [Nat.sub_self, List.drop_zero] at this
          exact absurd hm this
        · have : i = k := by omega
          rw [this]
    · rw [findFromAux_cons_neg hm, ih (i + 1) k]
      have hdrop : ∀ j : Nat, i + 1 ≤ j → (x :: xs).drop (j - i) = xs.drop (j - (i + 1)) := by
        intro j hj
        have h1 : j - i = (j - (i + 1)) + 1 := by omega
        rw [h1, List.drop_succ_cons]
      constructor
      · rintro ⟨h1, h2, h3⟩
        refine ⟨by omega, ?_, ?_⟩
        · rw [hdrop k h1]; exact h2
        · intro j hj1 hj2
          rcases Nat.eq_or_lt_of_le hj1 with rfl | hj
          · rw [Nat.sub_self, List.drop_zero]; exact hm
          · rw [hdrop j (by omega)]
            exact h3 j (by omega) hj2
      · rintro ⟨h1, h2, h3⟩
        have hk : i + 1 ≤ k := by
          rcases Nat.eq_or_lt_of_le h1 with rfl | hj
          · rw [Nat.sub_self, List.drop_zero] at h2
            exact absurd h2 hm
          · omega
        refine ⟨hk, ?_, ?_⟩
        · rw [← hdrop k hk]; exact h2
        · intro j hj1 hj2
          rw [← hdrop j hj1]
          exact h3 j (by omega) hj2

theorem findFromAux_eq_none (pat : List Nat) : ∀ (t : List Nat) (i : Nat),
    findFromAux pat t i = none ↔ ∀ d, ¬ matchAt pat (t.drop d) = true := by
  intro t
  induction t with
  | nil =>
    intro i
    by_cases hm : matchAt pat [] = true
    · rw [show findFromAux pat [] i = some i from by simp [findFromAux, hm]]
      constructor
      · intro h; exact absurd h (by simp)
      · intro h; exact absurd (by simpa using hm) (h 0)
    · rw [show findFromAux pat [] i = none from by simp [findFromAux, hm]]
      simp only [true_iff]
      intro d
      simpa using hm
  | cons x xs ih =>
    intro i
    by_cases hm : matchAt pat (x :: xs) = true
    · rw [findFromAux_cons_pos hm]
      constructor
      · intro h; exact absurd h (by simp)
      · intro h; exact absurd (by simpa using hm) (h 0)
    · rw [findFromAux_cons_neg hm, ih (i + 1)]
      constructor
      · intro h d
        cases d with
        | zero => simpa using hm
        | succ d =>
          rw [List.drop_succ_cons]
          exact h d
      · intro h d
        have := h (d + 1)
        rw [List.drop_succ_cons] at this
        exact this

theorem findFrom_eq_some {pat l : List Nat} {i k : Nat} :
    findFrom pat l i = some k ↔
      (i ≤ k ∧ occursAt pat l k ∧ ∀ j, i ≤ j → j < k → ¬ occursAt pat l j) := by
  unfold findFrom occursAt
  rw [findFromAux_eq_some]
  have hdd : ∀ j : Nat, i ≤ j → (l.drop i).drop (j - i) = l.drop j := by
    intro j hj
    rw [List.drop_drop]
    congr 1
    omega
  constructor
  · rintro ⟨h1, h2, h3⟩
    refine ⟨h1, ?_, ?_⟩
    · rw [← hdd k h1]; exact h2
    · intro j hj1 hj2
      rw [← hdd j hj1]
      exact h3 j hj1 hj2
  · rintro ⟨h1, h2, h3⟩
    refine ⟨h1, ?_, ?_⟩
    · rw [hdd k h1]; exact h2
    · intro j hj1 hj2
      rw [hdd j hj1]
      exact h3 j hj1 hj2

theorem findFrom_eq_none {pat l : List Nat} {i : Nat} :
    findFrom pat l i = none ↔ ∀ j, i ≤ j → ¬ occursAt pat l j := by
  unfold findFrom occursAt
  rw [findFromAux_eq_none]
  constructor
  · intro h j hj
    have := h (j - i)
    rw [List.drop_drop, show i + (j - i) = j from by omega] at this
    exact this
  · intro h d
    rw [List.drop_drop]
    exact h (i + d) (by omega)

theorem frameLoopFuel_succ_none {s e buf : List Nat} {n : Nat}
    (h : findFrom s buf 0 = none) :
    frameLoopFuel (n + 1) s e buf = ([], []) := by
  simp [frameLoopFuel, h]

theorem frameLoopFuel_succ_wait {s e buf : List Nat} {n si : Nat}
    (h1 : findFrom s buf 0 = some si)
    (h2 : findFrom e (buf.drop si) s.length = none) :
    frameLoopFuel (n + 1) s e buf = ([], buf.drop si) := by
  simp [frameLoopFuel, h1, h2]

theorem frameLoopFuel_succ_emit {s e buf : List Nat} {n si ei : Nat}
    (h1 : findFrom s buf 0 = some si)
    (h2 : findFrom e (buf.drop si) s.length = some ei) :
    frameLoopFuel (n + 1) s e buf =
      ((buf.drop si).take (ei + e.length) ::
        (frameLoopFuel n s e ((buf.drop si).drop (ei + e.length))).1,
       (frameLoopFuel n s e ((buf.drop si).drop (ei + e.length))).2) := by
  simp [frameLoopFuel, h1, h2]

theorem frameLoopFuel_congr {s e : List Nat} (he : e ≠ []) : ∀ n m buf,
    buf.length < n → buf.length < m →
    frameLoopFuel n s e buf = frameLoopFuel m s e buf := by
  intro n
  induction n with
  | zero =>
    intro m buf hn
    exact absurd hn (by omega)
  | succ n ih =>
    intro m buf hn hm
    cases m with
    | zero => exact absurd hm (by omega)
    | succ m =>
      cases hfs : findFrom s buf 0 with
      | none => rw [frameLoopFuel_succ_none hfs, frameLoopFuel_succ_none hfs]
      | some si =>
        cases hfe : findFrom e (buf.drop si) s.length with
        | none => rw [frameLoopFuel_succ_wait hfs hfe, frameLoopFuel_succ_wait hfs hfe]
        | some ei =>
          rw [frameLoopFuel_succ_emit hfs hfe, frameLoopFuel_succ_emit hfs hfe]
          have hocc : occursAt e (buf.drop si) ei := (findFrom_eq_some.mp hfe).2.1
          have hb : ei + e.length ≤ (buf.drop si).length := occursAt_bound he hocc
          have hel : 0 < e.length := List.length_pos.mpr he
          have h1 : ((buf.drop si).drop (ei + e.length)).length < n := by
            simp only [List.length_drop] at hb ⊢
            omega
          have h2 : ((buf.drop si).drop (ei + e.length)).length < m := by
            simp only [List.length_drop] at hb ⊢
            omega
          rw [ih m ((buf.drop si).drop (ei + e.length)) h1 h2]

theorem frameLoop_none {s e buf : List Nat} (h : findFrom s buf 0 = none) :
    frameLoop s e buf = ([], []) :=
  frameLoopFuel_succ_none h

theorem frameLoop_wait {s e buf : List Nat} {si : Nat}
    (h1 : findFrom s buf 0 = some si)
    (h2 : findFrom e (buf.drop si) s.length = none) :
    frameLoop s e buf = ([], buf.drop si) :=
  frameLoopFuel_succ_wait h1 h2

theorem frameLoop_emit {s e buf : List Nat} {si ei : Nat} (he : e ≠ [])
    (h1 : findFrom s buf 0 = some si)
    (h2 : findFrom e (buf.drop si) s.length = some ei) :
    frameLoop s e buf =
      ((buf.drop si).take (ei + e.length) ::
        (frameLoop s e ((buf.drop si).drop (ei + e.length))).1,
       (frameLoop s e ((buf.drop si).drop (ei + e.length))).2) := by
  have hocc : occursAt e (buf.drop si) ei := (findFrom_eq_some.mp h2).2.1
  have hb : ei + e.length ≤ (buf.drop si).length := occursAt_bound he hocc
  have hel : 0 < e.length := List.length_pos.mpr he
  have h1len : ((buf.drop si).drop (ei + e.length)).length < buf.length := by
    simp only [List.length_drop] at hb ⊢
    omega
  unfold frameLoop
  rw [frameLoopFuel_succ_emit h1 h2,
    frameLoopFuel_congr he buf.length (((buf.drop si).drop (ei + e.length)).length + 1)
      ((buf.drop si).drop (ei + e.length)) h1len (by omega)]

theorem frameLoopFuel_res_len (s e : List Nat) : ∀ n buf,
    ((frameLoopFuel n s e buf).2).length ≤ buf.length := by
  intro n
  induction n with
  | zero => intro buf; exact Nat.le_refl _
  | succ n ih =>
    intro buf
    cases hfs : findFrom s buf 0 with
    | none => rw [frameLoopFuel_succ_none hfs]; simp
    | some si =>
      cases hfe : findFrom e (buf.drop si) s.length with
      | none =>
        rw [frameLoopFuel_succ_wait hfs hfe]
        simp [List.length_drop]
      | some ei =>
        rw [frameLoopFuel_succ_emit hfs hfe]
        have := ih ((buf.drop si).drop (ei + e.length))
        simp only [List.length_drop] at this ⊢
        omega

theorem frameLoopFuel_res_sfx (s e : List Nat) : ∀ n buf,
    (frameLoopFuel n s e buf).2 <:+ buf := by
  intro n
  induction n with
  | zero => intro buf; exact List.suffix_refl _
  | succ n ih =>
    intro buf
    cases hfs : findFrom s buf 0 with
    | none =>
      rw [frameLoopFuel_succ_none hfs]
      exact List.nil_suffix
    | some si =>
      cases hfe : findFrom e (buf.drop si) s.length with
      | none =>
        rw [frameLoopFuel_succ_wait hfs hfe]
        exact List.drop_suffix _ _
      | some ei =>
        rw [frameLoopFuel_succ_emit hfs hfe]
        exact ((ih _).trans (List.drop_suffix _ _)).trans (List.drop_suffix _ _)

theorem frameLoop_res_len (s e buf : List Nat) :
    ((frameLoop s e buf).2).length ≤ buf.length :=
  frameLoopFuel_res_len s e _ buf

theorem frameLoop_res_sfx (s e buf : List Nat) : (frameLoop s e buf).2 <:+ buf :=
  frameLoopFuel_res_sfx s e _ buf

theorem findFrom_nil_eq_none {pat : List Nat} (hp : pat ≠ []) (i : Nat) :
    findFrom pat [] i = none := by
  simp [findFrom, findFromAux, matchAt_nil_eq_false hp]

theorem frameLoop_nil {s e : List Nat} (hs : s ≠ []) : frameLoop s e [] = ([], []) :=
  frameLoop_none (findFrom_nil_eq_none hs 0)

theorem frameLoop_fix_aux {s e : List Nat} (hs : s ≠ []) (he : e ≠ []) : ∀ n buf,
    buf.length ≤ n →
    frameLoop s e (frameLoop s e buf).2 = ([], (frameLoop s e buf).2) := by
  intro n
  induction n with
  | zero =>
    intro buf hb
    have hnil : buf = [] := List.eq_nil_of_length_eq_zero (by omega)
    subst hnil
    rw [frameLoop_nil hs, frameLoop_nil hs]
  | succ n ih =>
    intro buf hb
    cases hfs : findFrom s buf 0 with
    | none =>
      rw [frameLoop_none hfs]
      exact frameLoop_nil hs
    | some si =>
      have hocc : occursAt s buf si := (findFrom_eq_some.mp hfs).2.1
      cases hfe : findFrom e (buf.drop si) s.length with
      | none =>
        rw [frameLoop_wait hfs hfe]
        have hfs0 : findFrom s (buf.drop si) 0 = some 0 := by
          rw [findFrom_eq_some]
          refine ⟨Nat.le_refl 0, ?_, fun j h1 h2 => absurd h2 (by omega)⟩
          unfold occursAt at hocc ⊢
          simpa using hocc
        have hfe0 : findFrom e ((buf.drop si).drop 0) s.length = none := by
          rw [List.drop_zero]
          exact hfe
        rw [frameLoop_wait hfs0 hfe0, List.drop_zero]
      | some ei =>
        rw [frameLoop_emit he hfs hfe]
        have hbnd : ei + e.length ≤ (buf.drop si).length :=
          occursAt_bound he ((findFrom_eq_some.mp hfe).2.1)
        have hel : 0 < e.length := List.length_pos.mpr he
        have hlen : ((buf.drop si).drop (ei + e.length)).length ≤ n := by
          simp only [List.length_drop] at hbnd ⊢
          omega
        exact ih ((buf.drop si).drop (ei + e.length)) hlen

theorem frameLoop_fix {s e : List Nat} (hs : s ≠ []) (he : e ≠ []) (buf : List Nat) :
    frameLoop s e (frameLoop s e buf).2 = ([], (frameLoop s e buf).2) :=
  frameLoop_fix_aux hs he buf.length buf (Nat.le_refl _)

theorem endLoopFuel_succ_none {e b : List Nat} {n : Nat}
    (h : findFrom e b 0 = none) :
    endLoopFuel (n + 1) e b = ([], b) := by
  simp [endLoopFuel, h]

theorem endLoopFuel_succ_emit {e b : List Nat} {n i : Nat}
    (h : findFrom e b 0 = some i) :
    endLoopFuel (n + 1) e b =
      ((b.take i ++ e) :: (endLoopFuel n e (b.drop (i + e.length))).1,
       (endLoopFuel n e (b.drop (i + e.length))).2) := by
  simp [endLoopFuel, h]

theorem endLoopFuel_congr {e : List Nat} (he : e ≠ []) : ∀ n m b,
    b.length < n → b.length < m →
    endLoopFuel n e b = endLoopFuel m e b := by
  intro n
  induction n with
  | zero =>
    intro m b hn
    exact absurd hn (by omega)
  | succ n ih =>
    intro m b hn hm
    cases m with
    | zero => exact absurd hm (by omega)
    | succ m =>
      cases hf : findFrom e b 0 with
      | none => rw [endLoopFuel_succ_none hf, endLoopFuel_succ_none hf]
      | some i =>
        rw [endLoopFuel_succ_emit hf, endLoopFuel_succ_emit hf]
        have hocc : occursAt e b i := (findFrom_eq_some.mp hf).2.1
        have hb : i + e.length ≤ b.length := occursAt_bound he hocc
        have hel : 0 < e.length := List.length_pos.mpr he
        have h1 : (b.drop (i + e.length)).length < n := by
          simp only [List.length_drop]
          omega
        have h2 : (b.drop (i + e.length)).length < m := by
          simp only [List.length_drop]
          omega
        rw [ih m (b.drop (i + e.length)) h1 h2]

theorem endLoop_none {e b : List Nat} (h : findFrom e b 0 = none) :
    endLoop e b = ([], b) :=
  endLoopFuel_succ_none h

theorem endLoop_emit {e b : List Nat} {i : Nat} (he : e ≠ [])
    (h : findFrom e b 0 = some i) :
    endLoop e b =
      ((b.take i ++ e) :: (endLoop e (b.drop (i + e.length))).1,
       (endLoop e (b.drop (i + e.length))).2) := by
  have hocc : occursAt e b i := (findFrom_eq_some.mp h).2.1
  have hb : i + e.length ≤ b.length := occursAt_bound he hocc
  have hel : 0 < e.length := List.length_pos.mpr he
  have h1 : (b.drop (i + e.length)).length < b.length := by
    simp only [List.length_drop]
    omega
  unfold endLoop
  rw [endLoopFuel_succ_emit h,
    endLoopFuel_congr he b.length ((b.drop (i + e.length)).length + 1)
      (b.drop (i + e.length)) h1 (by omega)]

theorem endLoopFuel_res_len (e : List Nat) : ∀ n b,
    ((endLoopFuel n e b).2).length ≤ b.length := by
  intro n
  induction n with
  | zero => intro b; exact Nat.le_refl _
  | succ n ih =>
    intro b
    cases hf : findFrom e b 0 with
    | none => rw [endLoopFuel_succ_none hf]
    | some i =>
      rw [endLoopFuel_succ_emit hf]
      have := ih (b.drop (i + e.length))
      simp only [List.length_drop] at this ⊢
      omega

theorem endLoopFuel_res_sfx (e : List Nat) : ∀ n b,
    (endLoopFuel n e b).2 <:+ b := by
  intro n
  induction n with
  | zero => intro b; exact List.suffix_refl _
  | succ n ih =>
    intro b
    cases hf : findFrom e b 0 with
    | none =>
      rw [endLoopFuel_succ_none hf]
    | some i =>
      rw [endLoopFuel_succ_emit hf]
      exact (ih _).trans (List.drop_suffix _ _)

theorem endLoop_res_len (e b : List Nat) : ((endLoop e b).2).length ≤ b.length :=
  endLoopFuel_res_len e _ b

theorem endLoop_res_sfx (e b : List Nat) : (endLoop e b).2 <:+ b :=
  endLoopFuel_res_sfx e _ b

theorem endLoop_fix_aux {e : List Nat} (he : e ≠ []) : ∀ n b,
    b.length ≤ n →
    endLoop e (endLoop e b).2 = ([], (endLoop e b).2) := by
  intro n
  induction n with
  | zero =>
    intro b hb
    have hnil : b = [] := List.eq_nil_of_length_eq_zero (by omega)
    subst hnil
    rw [endLoop_none (findFrom_nil_eq_none he 0), endLoop_none (findFrom_nil_eq_none he 0)]
  | succ n ih =>
    intro b hb
    cases hf : findFrom e b 0 with
    | none =>
      rw [endLoop_none hf, endLoop_none hf]
    | some i =>
      rw [endLoop_emit he hf]
      have hocc : occursAt e b i := (findFrom_eq_some.mp hf).2.1
      have hbnd : i + e.length ≤ b.length := occursAt_bound he hocc
      have hel : 0 < e.length := List.length_pos.mpr he
      have hlen : (b.drop (i + e.length)).length ≤ n := by
        simp only [List.length_drop]
        omega
      exact ih (b.drop (i + e.length)) hlen

theorem endLoop_fix {e : List Nat} (he : e ≠ []) (b : List Nat) :
    endLoop e (endLoop e b).2 = ([], (endLoop e b).2) :=
  endLoop_fix_aux he b.length b (Nat.le_refl _)

theorem capBuf_len_le (b : List Nat) : (capBuf b).length ≤ maxBufferSize := by
  unfold capBuf
  split
  · simp only [List.length_drop]
    omega
  · omega

theorem capBuf_sfx (b : List Nat) : capBuf b <:+ b := by
  unfold capBuf
  split
  · exact List.drop_suffix _ _
  · exact List.suffix_refl _

theorem capBuf_eq_self {b : List Nat} (h : b.length ≤ maxBufferSize) : capBuf b = b := by
  unfold capBuf
  rw [if_neg (by omega)]

theorem sfx_append_right {l1 l2 l3 : List Nat} (h : l1 <:+ l2) : l1 ++ l3 <:+ l2 ++ l3 := by
  obtain ⟨t, ht⟩ := h
  exact ⟨t, by rw [← List.append_assoc, ht]⟩

theorem ingest_eq_frame {s e : List Nat} (hs : s ≠ []) (he : e ≠ [])
    (buf chunk : List Nat) :
    ingest true s e buf chunk = frameLoop s e (capBuf (buf ++ chunk)) := by
  cases e with
  | nil => exact absurd rfl he
  | cons e0 et =>
    cases s with
    | nil => exact absurd rfl hs
    | cons s0 st => rfl

theorem ingest_eq_end {e : List Nat} (he : e ≠ []) (buf chunk : List Nat) :
    ingest true [] e buf chunk = endLoop e (capBuf (buf ++ chunk)) := by
  cases e with
  | nil => exact absurd rfl he
  | cons e0 et => rfl

theorem ingest_res_len {s e : List Nat} (he : e ≠ []) (buf chunk : List Nat) :
    ((ingest true s e buf chunk).2).length ≤ maxBufferSize := by
  cases s with
  | nil =>
    rw [ingest_eq_end he]
    exact (endLoop_res_len _ _).trans (capBuf_len_le _)
  | cons s0 st =>
    rw [ingest_eq_frame (by simp) he]
    exact (frameLoop_res_len _ _ _).trans (capBuf_len_le _)

theorem ingest_res_sfx {s e : List Nat} (he : e ≠ []) (buf chunk : List Nat) :
    (ingest true s e buf chunk).2 <:+ buf ++ chunk := by
  cases s with
  | nil =>
    rw [ingest_eq_end he]
    exact (endLoop_res_sfx _ _).trans (capBuf_sfx _)
  | cons s0 st =>
    rw [ingest_eq_frame (by simp) he]
    exact (frameLoop_res_sfx _ _ _).trans (capBuf_sfx _)

/-- `buffer[:end_index + len(end_byte)]` agrees with the spec's "from offset
`i` through the end of the marker inclusive" split: when the marker occurs at
`i`, `take i ++ marker` is `take (i + marker.length)`. -/
theorem take_marker_eq {e b : List Nat} {i : Nat} (he : e ≠ [])
    (h : occursAt e b i) : b.take i ++ e = b.take (i + e.length) := by
  obtain ⟨t, ht⟩ := (occursAt_iff_append e b i).mp h
  have hbnd : i + e.length ≤ b.length := occursAt_bound he h
  have hb : b = b.take i ++ (e ++ t) := by
    conv_lhs => rw [← List.take_append_drop i b, ht]
  have hlen : (b.take i ++ e).length = i + e.length := by
    simp only [List.length_append, List.length_take]
    omega
  have key : b.take (i + e.length) = b.take i ++ e :=
    calc b.take (i + e.length)
        = (b.take i ++ (e ++ t)).take (i + e.length) := by rw [← hb]
      _ = ((b.take i ++ e) ++ t).take (i + e.length) := by rw [List.append_assoc]
      _ = b.take i ++ e := List.take_left' hlen
  exact key.symm

theorem ingest_nil_nil {s e : List Nat} (he : e ≠ []) :
    ingest true s e [] [] = ([], []) := by
  cases s with
  | nil =>
    rw [ingest_eq_end he, capBuf_eq_self (by simp [maxBufferSize])]
    exact endLoop_none (findFrom_nil_eq_none he 0)
  | cons s0 st =>
    rw [ingest_eq_frame (by simp) he, capBuf_eq_self (by simp [maxBufferSize])]
    exact frameLoop_nil (by simp)

theorem ingest_fix {s e : List Nat} (he : e ≠ []) (buf chunk : List Nat) :
    ingest true s e (ingest true s e buf chunk).2 [] =
      ([], (ingest true s e buf chunk).2) := by
  cases s with
  | nil =>
    rw [ingest_eq_end he buf chunk, ingest_eq_end he]
    rw [List.append_nil,
      capBuf_eq_self ((endLoop_res_len _ _).trans (capBuf_len_le _))]
    exact endLoop_fix he _
  | cons s0 st =>
    rw [ingest_eq_frame (by simp) he buf chunk, ingest_eq_frame (by simp) he]
    rw [List.append_nil,
      capBuf_eq_self ((frameLoop_res_len _ _ _).trans (capBuf_len_le _))]
    exact frameLoop_fix (by simp) he _

theorem utf8Char_ne_nil (c : Char) : utf8Char c ≠ [] := by
  simp only [utf8Char]
  split_ifs <;> simp

theorem utf8Encode_ne_nil {s : List Char} (hs : s ≠ []) : utf8Encode s ≠ [] := by
  cases s with
  | nil => exact absurd rfl hs
  | cons c cs =>
    unfold utf8Encode
    simp only [List.map_cons, List.flatten_cons, ne_eq, List.append_eq_nil]
    intro h
    exact utf8Char_ne_nil c h.1

/-- Faithfulness of the branch test in `ingest`: the resolved bytes of a
non-empty marker string are non-empty, so `self.end_marker` (string
truthiness, line 199) and non-emptiness of the resolved end marker agree. -/
theorem parseMarker_ne_nil {s : List Char} (hs : s ≠ []) {m : List Nat}
    (h : parseMarker s = some m) : m ≠ [] := by
  have hie : s.isEmpty = false := by
    cases s with
    | nil => exact absurd rfl hs
    | cons c cs => rfl
  unfold parseMarker at h
  rw [hie] at h
  simp only [Bool.false_eq_true, if_false] at h
  split_ifs at h with h1 h2 h3 h4 h5
  · injection h with h'
    rw [← h']
    simp
  · injection h with h'
    rw [← h']
    simp
  · cases hh : pyHexInt (markerUpper s) with
    | none =>
      simp only [hh, Option.some.injEq] at h
      rw [← h]
      exact utf8Encode_ne_nil hs
    | some n =>
      simp only [hh] at h
      split_ifs at h with h6
      · injection h with h'
        rw [← h']
        simp
      · injection h with h'
        rw [← h']
        exact utf8Encode_ne_nil hs
  · injection h with h'
    rw [← h']
    simp
  · injection h with h'
    rw [← h']
    exact utf8Encode_ne_nil hs

theorem renderFoldr_append (done : List (List Nat)) (a z : List LogEntry) :
    done.foldr renderFileStep (a ++ z) = done.foldr renderFileStep a ++ z := by
  induction done with
  | nil => rfl
  | cons f fs ih =>
    simp only [List.foldr_cons, ih, renderFileStep, List.cons_append, List.append_assoc]

theorem renderEntries_snoc (done : List (List Nat)) (cur : List Nat) (m : Nat) :
    renderEntries done (cur ++ [m]) = renderEntries done cur ++ [LogEntry.packet m] := by
  unfold renderEntries
  rw [List.map_append, renderFoldr_append]
  rfl

theorem renderEntries_rotate (done : List (List Nat)) (cur : List Nat) (m : Nat) :
    renderEntries (done ++ [cur ++ [m]]) [] =
      renderEntries done cur ++
        [LogEntry.packet m, LogEntry.footer, LogEntry.header] := by
  unfold renderEntries
  rw [List.foldr_append]
  have hbase : List.foldr renderFileStep (List.map LogEntry.packet []) [cur ++ [m]] =
      cur.map LogEntry.packet ++
        [LogEntry.packet m, LogEntry.footer, LogEntry.header] := by
    simp [renderFileStep, List.map_append]
  rw [hbase, renderFoldr_append, List.cons_append]

theorem writeLogPacket_render (done : List (List Nat)) (cur : List Nat) (m : Nat) :
    writeLogPacket ⟨renderEntries done cur, cur.sum, true⟩ m =
      ⟨renderEntries (specFilesStep (done, cur) m).1 (specFilesStep (done, cur) m).2,
       (specFilesStep (done, cur) m).2.sum, true⟩ := by
  unfold writeLogPacket specFilesStep
  have hsum : (cur ++ [m]).sum = cur.sum + m := by simp
  by_cases hr : maxLogSize ≤ cur.sum + m
  · rw [if_pos (by simpa using hr), if_pos (by simpa [hsum] using hr)]
    unfold openNewLogFile
    simp only [if_pos]
    rw [renderEntries_rotate done cur m]
    simp [hsum, List.append_assoc]
  · rw [if_neg (by simpa using hr), if_neg (by simpa [hsum] using hr)]
    simp only [SinkState.mk.injEq]
    refine ⟨(renderEntries_snoc done cur m).symm, by simp [hsum], trivial⟩

theorem writeFold (msgs : List Nat) : ∀ (done : List (List Nat)) (cur : List Nat),
    msgs.foldl writeLogPacket ⟨renderEntries done cur, cur.sum, true⟩ =
      ⟨renderEntries (msgs.foldl specFilesStep (done, cur)).1
          (msgs.foldl specFilesStep (done, cur)).2,
       (msgs.foldl specFilesStep (done, cur)).2.sum, true⟩ := by
  induction msgs with
  | nil => intro done cur; rfl
  | cons m ms ih =>
    intro done cur
    rw [List.foldl_cons, List.foldl_cons, writeLogPacket_render]
    exact ih (specFilesStep (done, cur) m).1 (specFilesStep (done, cur) m).2

theorem specFilesStep_sum_lt (p : List (List Nat) × List Nat) (m : Nat) :
    (specFilesStep p m).2.sum < maxLogSize := by
  unfold specFilesStep
  split
  · show ([] : List Nat).sum < maxLogSize
    decide
  · rename_i hr
    show (p.2 ++ [m]).sum < maxLogSize
    omega

theorem specFilesStep_good {p : List (List Nat) × List Nat} {m : Nat}
    (hcur : p.2.sum < maxLogSize)
    (hdone : ∀ f ∈ p.1, goodFile f) :
    ∀ f ∈ (specFilesStep p m).1, goodFile f := by
  unfold specFilesStep
  split
  · rename_i hr
    intro f hf
    rw [List.mem_append] at hf
    rcases hf with hf | hf
    · exact hdone f hf
    · have hfe : f = p.2 ++ [m] := by simpa using hf
      subst hfe
      refine ⟨by simp, by simpa using hr, ?_⟩
      rw [List.dropLast_concat]
      exact hcur
  · exact fun f hf => hdone f hf

theorem specFold_good (msgs : List Nat) : ∀ (p : List (List Nat) × List Nat),
    p.2.sum < maxLogSize → (∀ f ∈ p.1, goodFile f) →
    ((msgs.foldl specFilesStep p).2.sum < maxLogSize ∧
      ∀ f ∈ (msgs.foldl specFilesStep p).1, goodFile f) := by
  induction msgs with
  | nil => intro p h1 h2; exact ⟨h1, h2⟩
  | cons m ms ih =>
    intro p h1 h2
    rw [List.foldl_cons]
    exact ih (specFilesStep p m) (specFilesStep_sum_lt p m) (specFilesStep_good h1 h2)

theorem trimOldest_len_le {α : Type} (cap : Nat) : ∀ q : List α,
    (trimOldest cap q).length ≤ cap := by
  intro q
  induction q with
  | nil => simp [trimOldest]
  | cons x tl ih =>
    simp only [trimOldest]
    split
    · exact ih
    · rename_i h
      omega

theorem trimOldest_sfx {α : Type} (cap : Nat) : ∀ q : List α,
    trimOldest cap q <:+ q := by
  intro q
  induction q with
  | nil => exact List.suffix_refl _
  | cons x tl ih =>
    simp only [trimOldest]
    split
    · exact ih.trans (List.suffix_cons x tl)
    · exact List.suffix_refl _

theorem trimOldest_getLast {α : Type} {cap : Nat} (hcap : 1 ≤ cap) : ∀ q : List α,
    (trimOldest cap q).getLast? = q.getLast? := by
  intro q
  induction q with
  | nil => rfl
  | cons x tl ih =>
    simp only [trimOldest]
    split
    · rename_i h
      cases tl with
      | nil => simp at h; omega
      | cons y ty =>
        rw [ih]
        exact List.getLast?_cons_cons.symm
    · rfl

/-! ## Claims -/

/-- C4: the marker resolver satisfies the reference case analysis:
`resolve("STX") = [0x02]`, `resolve("etx") = [0x03]` (keywords
case-insensitive), `resolve("0x41") = [0x41]`, `resolve("65") = [0x41]`,
`resolve("Q") = [0x51]`, `resolve("") = []`; and every input whose
(stripped, uppercased) form begins with `0x`/`0X` but whose hexadecimal parse
fails resolves to the literal input text encoded as raw UTF-8 bytes rather
than raising an error. -/
theorem claim_C4 :
    parseMarker ['S', 'T', 'X'] = some [0x02] ∧
    parseMarker ['e', 't', 'x'] = some [0x03] ∧
    parseMarker ['0', 'x', '4', '1'] = some [0x41] ∧
    parseMarker ['6', '5'] = some [0x41] ∧
    parseMarker ['Q'] = some [0x51] ∧
    parseMarker [] = some [] ∧
    ∀ s : List Char,
      ['0', 'x'].isPrefixOf ((markerUpper s).map Char.toLower) = true →
      pyHexInt (markerUpper s) = none →
      parseMarker s = some (utf8Encode s) := by
  refine ⟨by decide, by decide, by decide, by decide, by decide, by decide, ?_⟩
  intro s h1 h2
  have hne : s ≠ [] := by
    intro hnil
    subst hnil
    exact absurd h1 (by decide)
  have hie : s.isEmpty = false := by
    cases s with
    | nil => exact absurd rfl hne
    | cons c cs => rfl
  have hstx : ¬ markerUpper s = ['S', 'T', 'X'] := by
    intro heq
    rw [heq] at h1
    exact absurd h1 (by decide)
  have hetx : ¬ markerUpper s = ['E', 'T', 'X'] := by
    intro heq
    rw [heq] at h1
    exact absurd h1 (by decide)
  unfold parseMarker
  rw [hie]
  simp only [Bool.false_eq_true, if_false]
  rw [if_neg hstx, if_neg hetx, if_pos h1]
  simp only [h2]

/-- C4 witness: the hex-fallback clause of `claim_C4` evaluated at the
concrete malformed marker text `0xZZ`. -/
theorem claim_C4_witness :
    (['0', 'x'].isPrefixOf ((markerUpper ['0', 'x', 'Z', 'Z']).map Char.toLower) = true ∧
      pyHexInt (markerUpper ['0', 'x', 'Z', 'Z']) = none) ∧
    parseMarker ['0', 'x', 'Z', 'Z'] = some (utf8Encode ['0', 'x', 'Z', 'Z']) :=
  ⟨⟨by decide, by decide⟩,
   claim_C4.2.2.2.2.2.2 ['0', 'x', 'Z', 'Z'] (by decide) (by decide)⟩

/-- C8: the marker resolver is total — under the documented precondition that
an all-decimal-digits input denotes a value at most 255, `parseMarker` always
returns a byte sequence (`some`) and never raises; in particular malformed hex
degrades to the raw-text fallback instead of failing.  (It is a pure Lean
function, hence deterministic and side-effect free.) -/
theorem claim_C8 : ∀ s : List Char,
    (pyIsDigit (markerUpper s) = true → decDigits (markerUpper s) ≤ 255) →
    ∃ bs, parseMarker s = some bs := by
  intro s hdec
  unfold parseMarker
  by_cases hie : s.isEmpty = true
  · rw [if_pos hie]
    exact ⟨[], rfl⟩
  · rw [if_neg hie]
    split_ifs with h1 h2 h3 h4 h5
    · exact ⟨[0x02], rfl⟩
    · exact ⟨[0x03], rfl⟩
    · cases hh : pyHexInt (markerUpper s) with
      | none => exact ⟨utf8Encode s, by simp [hh]⟩
      | some n =>
        by_cases hn : n < 256
        · exact ⟨[n], by simp [hh, hn]⟩
        · exact ⟨utf8Encode s, by simp [hh, hn]⟩
    · exact ⟨[decDigits (markerUpper s)], rfl⟩
    · exact absurd (hdec h4) (by omega)
    · exact ⟨utf8Encode s, rfl⟩

/-- C8 witness: totality at the concrete decimal input `65`, which satisfies
the range precondition. -/
theorem claim_C8_witness :
    (pyIsDigit (markerUpper ['6', '5']) = true →
      decDigits (markerUpper ['6', '5']) ≤ 255) ∧
    ∃ bs, parseMarker ['6', '5'] = some bs :=
  ⟨by decide, claim_C8 ['6', '5'] (by decide)⟩

/-- C1: in start/end framing mode, `ingest` appends the chunk to the buffer
and loops: if the start marker is absent everywhere, the entire buffer is
discarded and the loop stops with no packet; if the start marker first occurs
at offset `si`, the bytes before it are discarded (working buffer
`(buf ++ chunk).drop si`); the end marker is searched strictly after the start
marker's bytes: if absent the loop stops without emitting and that buffer is
retained; if first found at `ei`, the bytes through the end of the end marker
inclusive are emitted as one packet, removed, and the loop repeats on the
remainder (so several frames per chunk are emitted in order).  In particular
the single chunk `02 41 42 03 02 43 03` with start `0x02`, end `0x03` emits
exactly `02 41 42 03` then `02 43 03` and leaves the buffer empty.
(The size-cap hypothesis keeps the 1 MiB trim — claim C3's concern — out of
the loop description.) -/
theorem claim_C1 :
    (ingest true [0x02] [0x03] [] [0x02, 0x41, 0x42, 0x03, 0x02, 0x43, 0x03] =
      ([[0x02, 0x41, 0x42, 0x03], [0x02, 0x43, 0x03]], [])) ∧
    ∀ (s e buf chunk : List Nat), s ≠ [] → e ≠ [] →
      (buf ++ chunk).length ≤ maxBufferSize →
      (((∀ i, ¬ occursAt s (buf ++ chunk) i) →
          ingest true s e buf chunk = ([], [])) ∧
        (∀ si, occursAt s (buf ++ chunk) si →
          (∀ j, j < si → ¬ occursAt s (buf ++ chunk) j) →
          (((∀ k, s.length ≤ k → ¬ occursAt e ((buf ++ chunk).drop si) k) →
              ingest true s e buf chunk = ([], (buf ++ chunk).drop si)) ∧
            (∀ ei, s.length ≤ ei → occursAt e ((buf ++ chunk).drop si) ei →
              (∀ k, k < ei → s.length ≤ k → ¬ occursAt e ((buf ++ chunk).drop si) k) →
              ingest true s e buf chunk =
                (((buf ++ chunk).drop si).take (ei + e.length) ::
                  (ingest true s e (((buf ++ chunk).drop si).drop (ei + e.length)) []).1,
                 (ingest true s e (((buf ++ chunk).drop si).drop (ei + e.length)) []).2))))) := by
  constructor
  · decide
  · intro s e buf chunk hs he hlen
    have hing : ingest true s e buf chunk = frameLoop s e (buf ++ chunk) := by
      rw [ingest_eq_frame hs he, capBuf_eq_self hlen]
    refine ⟨?_, ?_⟩
    · intro habs
      have hnone : findFrom s (buf ++ chunk) 0 = none :=
        findFrom_eq_none.mpr (fun j _ => habs j)
      rw [hing, frameLoop_none hnone]
    · intro si hocc hmin
      have hsome : findFrom s (buf ++ chunk) 0 = some si :=
        findFrom_eq_some.mpr ⟨Nat.zero_le si, hocc, fun j _ hj2 => hmin j hj2⟩
      refine ⟨?_, ?_⟩
      · intro habs
        have hnone : findFrom e ((buf ++ chunk).drop si) s.length = none :=
          findFrom_eq_none.mpr (fun k hk => habs k hk)
        rw [hing, frameLoop_wait hsome hnone]
      · intro ei hei1 hei2 hei3
        have hsome2 : findFrom e ((buf ++ chunk).drop si) s.length = some ei :=
          findFrom_eq_some.mpr ⟨hei1, hei2, fun k hk1 hk2 => hei3 k hk2 hk1⟩
        have hrest : ingest true s e (((buf ++ chunk).drop si).drop (ei + e.length)) [] =
            frameLoop s e (((buf ++ chunk).drop si).drop (ei + e.length)) := by
          rw [ingest_eq_frame hs he, List.append_nil,
            capBuf_eq_self (by simp only [List.length_drop]; omega)]
        rw [hing, frameLoop_emit he hsome hsome2, hrest]

/-- C1 witness: the emit clause of `claim_C1` applied at the concrete chunk
`02 41 03` (start marker found at 0, end marker first found at 2), plus the
evaluated result. -/
theorem claim_C1_witness :
    (([0x02] : List Nat) ≠ [] ∧ ([0x03] : List Nat) ≠ [] ∧
      (([] : List Nat) ++ [0x02, 0x41, 0x03]).length ≤ maxBufferSize ∧
      occursAt [0x02] (([] : List Nat) ++ [0x02, 0x41, 0x03]) 0 ∧
      occursAt [0x03] ((([] : List Nat) ++ [0x02, 0x41, 0x03]).drop 0) 2) ∧
    ingest true [0x02] [0x03] [] [0x02, 0x41, 0x03] = ([[0x02, 0x41, 0x03]], []) :=
  ⟨by decide, by
    have h := ((claim_C1.2 [0x02] [0x03] [] [0x02, 0x41, 0x03]
        (by decide) (by decide) (by decide)).2 0 (by decide) (by decide)).2 2
        (by decide) (by decide) (by decide)
    rw [h]
    decide⟩

/-- C2 counterexample: with start `0x02` and end `0x03`, ingesting
`FF 02 11 22 03 99` from an empty buffer does emit exactly `02 11 22 03`, but
the trailing `0x99` is NOT retained in the buffer: after extracting the frame
the loop re-runs, finds no start marker in `99`, and discards the entire
buffer (line 214 `self.buffer = b""`), leaving it empty — refuting the
claim's "trailing byte retained for the next frame's start-marker search". -/
theorem claim_C2_counterexample :
    (ingest true [0x02] [0x03] [] [0xFF, 0x02, 0x11, 0x22, 0x03, 0x99]).1 =
      [[0x02, 0x11, 0x22, 0x03]] ∧
    ¬ (ingest true [0x02] [0x03] [] [0xFF, 0x02, 0x11, 0x22, 0x03, 0x99]).2 = [0x99] := by
  decide

/-- C2 (amended): in start/end framing mode with start `0x02`, end `0x03`,
from an empty buffer, ingesting `FF 02 11 22 03 99` emits exactly one packet
`02 11 22 03`; the leading `FF` is discarded, and the trailing `99` is also
discarded (not retained), because the next loop iteration finds no start
marker and clears the buffer, leaving it empty. -/
theorem claim_C2 :
    ingest true [0x02] [0x03] [] [0xFF, 0x02, 0x11, 0x22, 0x03, 0x99] =
      ([[0x02, 0x11, 0x22, 0x03]], []) := by
  decide

/-- C3: in any buffering mode (buffering enabled, end marker non-empty), for
every sequence of ingest calls starting from the empty buffer, after each call
the frame buffer's length is at most the 1 MiB cap, and the retained buffer is
always a suffix of the concatenation of all bytes injected so far — trimming
and frame extraction only ever discard the oldest bytes, never the newest. -/
theorem claim_C3 : ∀ (s e : List Nat), e ≠ [] →
    ∀ (chunks : List (List Nat)) (i : Nat),
    ((chunks.take i).foldl (fun b c => (ingest true s e b c).2) []).length ≤
      maxBufferSize ∧
    ((chunks.take i).foldl (fun b c => (ingest true s e b c).2) []) <:+
      (chunks.take i).flatten := by
  intro s e he chunks i
  suffices h : ∀ (cs : List (List Nat)) (b J : List Nat),
      b.length ≤ maxBufferSize → b <:+ J →
      ((cs.foldl (fun b c => (ingest true s e b c).2) b).length ≤ maxBufferSize ∧
        (cs.foldl (fun b c => (ingest true s e b c).2) b) <:+ (J ++ cs.flatten)) by
    have h0 := h (chunks.take i) [] [] (by simp [maxBufferSize]) (List.suffix_refl [])
    simpa using h0
  intro cs
  induction cs with
  | nil =>
    intro b J h1 h2
    simpa using ⟨h1, h2⟩
  | cons c cs ih =>
    intro b J h1 h2
    rw [List.foldl_cons]
    have hstep1 : ((ingest true s e b c).2).length ≤ maxBufferSize :=
      ingest_res_len he b c
    have hstep2 : (ingest true s e b c).2 <:+ J ++ c :=
      (ingest_res_sfx he b c).trans (sfx_append_right h2)
    obtain ⟨ha, hb⟩ := ih (ingest true s e b c).2 (J ++ c) hstep1 hstep2
    refine ⟨ha, ?_⟩
    rwa [List.append_assoc, ← List.flatten_cons] at hb

/-- C3 witness: the invariant evaluated after ingesting the single chunk
`01 02 03` with start `0x02`, end `0x03` (the residual buffer is empty, well
within the cap and a suffix of the injected stream). -/
theorem claim_C3_witness :
    (([0x03] : List Nat) ≠ []) ∧
    ((((([[0x01, 0x02, 0x03]] : List (List Nat)).take 1).foldl
        (fun b c => (ingest true [0x02] [0x03] b c).2) []).length ≤ maxBufferSize) ∧
      ((([[0x01, 0x02, 0x03]] : List (List Nat)).take 1).foldl
        (fun b c => (ingest true [0x02] [0x03] b c).2) []) <:+
        (([[0x01, 0x02, 0x03]] : List (List Nat)).take 1).flatten) :=
  ⟨by decide, claim_C3 [0x02] [0x03] (by decide) [[0x01, 0x02, 0x03]] 1⟩

/-- C5: in end-marker-only mode (buffering enabled, start marker empty, end
marker non-empty), each ingest appends the chunk to the buffer and repeatedly
splits at the first occurrence of the end marker, emitting everything up to
and including the marker as one packet and continuing on the remainder (zero,
one or many packets per call); if the marker is absent nothing is emitted and
the whole buffer is retained.  In particular, from an empty buffer with end
marker `0x03`, ingesting `AA BB 03` and then `CC 03` yields exactly the two
packets `AA BB 03` then `CC 03`, in order. -/
theorem claim_C5 :
    (ingest true [] [0x03] [] [0xAA, 0xBB, 0x03] = ([[0xAA, 0xBB, 0x03]], []) ∧
      ingest true [] [0x03] (ingest true [] [0x03] [] [0xAA, 0xBB, 0x03]).2
        [0xCC, 0x03] = ([[0xCC, 0x03]], [])) ∧
    ∀ (e buf chunk : List Nat), e ≠ [] → (buf ++ chunk).length ≤ maxBufferSize →
      (((∀ i, ¬ occursAt e (buf ++ chunk) i) →
          ingest true [] e buf chunk = ([], buf ++ chunk)) ∧
        (∀ i, occursAt e (buf ++ chunk) i →
          (∀ j, j < i → ¬ occursAt e (buf ++ chunk) j) →
          ingest true [] e buf chunk =
            ((buf ++ chunk).take (i + e.length) ::
              (ingest true [] e ((buf ++ chunk).drop (i + e.length)) []).1,
             (ingest true [] e ((buf ++ chunk).drop (i + e.length)) []).2))) := by
  constructor
  · exact ⟨by decide, by decide⟩
  · intro e buf chunk he hlen
    have hing : ingest true [] e buf chunk = endLoop e (buf ++ chunk) := by
      rw [ingest_eq_end he, capBuf_eq_self hlen]
    constructor
    · intro habs
      have hnone : findFrom e (buf ++ chunk) 0 = none :=
        findFrom_eq_none.mpr (fun j _ => habs j)
      rw [hing, endLoop_none hnone]
    · intro i hi hmin
      have hsome : findFrom e (buf ++ chunk) 0 = some i :=
        findFrom_eq_some.mpr ⟨Nat.zero_le i, hi, fun j _ hj => hmin j hj⟩
      have hrest : ingest true [] e ((buf ++ chunk).drop (i + e.length)) [] =
          endLoop e ((buf ++ chunk).drop (i + e.length)) := by
        rw [ingest_eq_end he, List.append_nil,
          capBuf_eq_self (by simp only [List.length_drop]; omega)]
      rw [hing, endLoop_emit he hsome, hrest, take_marker_eq he hi]

/-- C5 witness: the split clause of `claim_C5` applied at the concrete chunk
`41 03` (end marker first found at offset 1), plus the evaluated result. -/
theorem claim_C5_witness :
    (([0x03] : List Nat) ≠ [] ∧
      (([] : List Nat) ++ [0x41, 0x03]).length ≤ maxBufferSize ∧
      occursAt [0x03] (([] : List Nat) ++ [0x41, 0x03]) 1) ∧
    ingest true [] [0x03] [] [0x41, 0x03] = ([[0x41, 0x03]], []) :=
  ⟨by decide, by
    have h := (claim_C5.2 [0x03] [] [0x41, 0x03] (by decide) (by decide)).2 1
      (by decide) (by decide)
    rw [h]
    decide⟩

/-- C10 counterexample: the claim quantifies over "buffering enabled or
disabled"; with buffering disabled the code's pass-through branch (lines
253-265) emits every received chunk as one packet — an empty chunk included —
so ingesting an empty chunk emits one (empty-payload) packet rather than
none. -/
theorem claim_C10_counterexample :
    ingest false [0x02] [0x03] [] [] = ([[]], []) ∧
    ¬ (ingest false [0x02] [0x03] [] []).1 = [] := by
  decide

/-- C10 (amended): in buffering mode (buffering enabled, end marker
non-empty), from the initial empty buffer or from any buffer state produced by
an ingest call, ingesting an empty chunk emits no packets and leaves the
buffer unchanged; with buffering disabled (or an empty end marker) the code
instead emits every chunk — an empty one included — as a single packet, with
the buffer untouched. -/
theorem claim_C10 :
    (∀ s e : List Nat, e ≠ [] → ingest true s e [] [] = ([], [])) ∧
    (∀ s e buf chunk : List Nat, e ≠ [] →
      ingest true s e (ingest true s e buf chunk).2 [] =
        ([], (ingest true s e buf chunk).2)) ∧
    (∀ s e buf chunk : List Nat, ingest false s e buf chunk = ([chunk], buf)) :=
  ⟨fun _ _ he => ingest_nil_nil he,
   fun _ _ buf chunk he => ingest_fix he buf chunk,
   fun _ _ _ _ => rfl⟩

/-- C10 witness: the no-op clause of `claim_C10` evaluated after ingesting
`02 09` (which leaves `02 09` buffered awaiting an end marker). -/
theorem claim_C10_witness :
    (([0x03] : List Nat) ≠ []) ∧
    ingest true [0x02] [0x03] (ingest true [0x02] [0x03] [] [0x02, 0x09]).2 [] =
      ([], (ingest true [0x02] [0x03] [] [0x02, 0x09]).2) :=
  ⟨by decide, claim_C10.2.1 [0x02] [0x03] [] [0x02, 0x09] (by decide)⟩

/-- C6: evaluation of `SerialReaderThread.stop` at a state with buffering
enabled, residual buffer `41`, and an open per-port log file.  `stop` emits
exactly one final packet whose payload is the residual buffered bytes
(rendered `41`) — that part of the claim holds — but it then closes the log
file WITHOUT writing a footer; the reader loop's cleanup afterwards attempts
the footer write on the already-closed file, which raises (`writeError`)
instead of writing, so no footer ever reaches the file.  This refutes the
claim's "closed with a footer" and contradicts the close path the code itself
implements in `run`'s `finally` (footer then close): a code bug. -/
theorem claim_C6 :
    (readerStop ⟨true, [0x41], ['t'], ['R', 'X', '1'], some ⟨false, [], false⟩⟩).1 =
      [renderMessage ['t'] ['R', 'X', '1'] [0x41]] ∧
    hexDataStr [0x41] = ['4', '1'] ∧
    (readerStop ⟨true, [0x41], ['t'], ['R', 'X', '1'],
        some ⟨false, [], false⟩⟩).2.logFile =
      some ⟨true, [PortWrite.line (renderMessage ['t'] ['R', 'X', '1'] [0x41])], false⟩ ∧
    (runFinally (readerStop ⟨true, [0x41], ['t'], ['R', 'X', '1'],
        some ⟨false, [], false⟩⟩).2).logFile =
      some ⟨true, [PortWrite.line (renderMessage ['t'] ['R', 'X', '1'] [0x41])], true⟩ := by
  decide

/-- C7: for every sequence of packet writes to the per-port log sink, the
chronological entry stream equals the rendering of the reference greedy
partition `specFiles`: a header first, then for each completed file its packet
lines followed by its footer and the next file's header, then the current
file's packet lines.  Each completed file crossed the 20 MiB threshold exactly
at its last write (`goodFile`: its packet bytes reach the threshold, but did
not before that write — exactly one rotation per crossing, checked after each
write so the file may slightly exceed the limit), and the current file's
counter is still below the threshold. -/
theorem claim_C7 : ∀ msgs : List Nat,
    (msgs.foldl writeLogPacket initSink).entries =
      renderEntries (specFiles msgs).1 (specFiles msgs).2 ∧
    (msgs.foldl writeLogPacket initSink).size = (specFiles msgs).2.sum ∧
    (specFiles msgs).2.sum < maxLogSize ∧
    ∀ f ∈ (specFiles msgs).1, goodFile f := by
  intro msgs
  have hinit : initSink = (⟨renderEntries [] [], List.sum ([] : List Nat), true⟩ :
      SinkState) := rfl
  have h1 := writeFold msgs [] []
  rw [← hinit] at h1
  have h2 := specFold_good msgs ([], []) (by decide) (by simp)
  unfold specFiles
  refine ⟨?_, ?_, h2.1, h2.2⟩
  · rw [h1]
  · rw [h1]

/-- C7 witness: the rotation correspondence evaluated on the one-write
stream `[5]`. -/
theorem claim_C7_witness :
    (([5] : List Nat).foldl writeLogPacket initSink).entries =
      renderEntries (specFiles [5]).1 (specFiles [5]).2 ∧
    (([5] : List Nat).foldl writeLogPacket initSink).size = (specFiles [5]).2.sum ∧
    (specFiles [5]).2.sum < maxLogSize ∧
    ∀ f ∈ (specFiles [5]).1, goodFile f :=
  claim_C7 [5]

/-- C9: for every enqueue on the pending-display queue, the resulting queue
never exceeds the configured maximum item count, only the oldest entries are
dropped (the result is a suffix of the old queue with the new item appended),
and the newest entry is always retained (it is the last element). -/
theorem claim_C9 : ∀ (q : List (List Char)) (x : List Char),
    (enqueueDisplay q x).length ≤ maxPendingDisplay ∧
    enqueueDisplay q x <:+ q ++ [x] ∧
    (enqueueDisplay q x).getLast? = some x := by
  intro q x
  unfold enqueueDisplay
  split
  · refine ⟨trimOldest_len_le _ _, trimOldest_sfx _ _, ?_⟩
    rw [trimOldest_getLast (by decide) (q ++ [x])]
    exact List.getLast?_concat q
  · rename_i h
    exact ⟨by omega, List.suffix_refl _, List.getLast?_concat q⟩
